import Mathlib

/-!
Verification of `matrix/elementary.py`: elementary row operations and
reduced row echelon form (Gauss–Jordan with partial pivoting).

Modelling conventions:
* A matrix is a list of rows, each row a list of rationals (`ℚ` stands in
  for the floating-point values; arithmetic is exact).
* PyTorch row indexing is modelled faithfully: an integer index `i` is
  valid iff `-rows ≤ i < rows`, and a negative index addresses row
  `rows + i`; an invalid index raises `IndexError`, modelled as `none`.
* Each public operation (`rowswap`, `rowscale`, `rowreplacement`) returns
  `Option Matrix`; the in-range cores are the `*Core` functions.
* `rref` follows the source line by line: a column sweep carrying the
  pivot cursor `r`, partial pivoting with a strict greater-than against a
  running maximum initialised to `eps`, an `|pivot| > eps` guard before
  scaling, elimination only of rows whose entry exceeds `eps` in absolute
  value, and a final cleanup that zeroes entries with `|x| < eps`
  (strictly below `eps`, as in `M[abs(M) < eps] = 0.0`).
-/

namespace MatrixElem

/-- A matrix value: a list of rows of rationals. -/
abbrev Matrix := List (List ℚ)

/-- Number of rows (`M.shape[0]`). -/
def nrows (M : Matrix) : Nat := M.length

/-- Number of columns (`M.shape[1]`); a tensor is rectangular, so the
first row's length is the common width. -/
def ncols (M : Matrix) : Nat := (M.headD []).length

/-- Row `i` of the matrix (total; out-of-range gives `[]`). -/
def row (M : Matrix) (i : Nat) : List ℚ := M.getD i []

/-- Entry in row `i`, column `c` (total; out-of-range gives `0`). -/
def entry (M : Matrix) (i c : Nat) : ℚ := (row M i).getD c 0

/-- PyTorch integer row-index semantics: valid iff `-n ≤ i < n`; a
negative index addresses row `n + i`; otherwise `IndexError` (`none`). -/
def normIdx (n : Nat) (i : Int) : Option Nat :=
  if 0 ≤ i ∧ i < (n : Int) then some i.toNat
  else if -(n : Int) ≤ i ∧ i < 0 then some (i + (n : Int)).toNat
  else none

/-- `rowswap` body after index resolution: `M[[i, j], :] = M[[j, i], :]`
(the right-hand side is read in full before assignment). -/
def rowswapCore (M : Matrix) (i j : Nat) : Matrix :=
  (M.set i (row M j)).set j (row M i)

/-- `rowswap(A, i, j)`: swap rows `i` and `j`. -/
def rowswap (M : Matrix) (i j : Int) : Option Matrix := do
  let i' ← normIdx M.length i
  let j' ← normIdx M.length j
  pure (rowswapCore M i' j')

/-- `rowscale` body after index resolution: `M[i, :] = factor * M[i, :]`. -/
def rowscaleCore (M : Matrix) (i : Nat) (factor : ℚ) : Matrix :=
  M.set i ((row M i).map (fun x => factor * x))

/-- `rowscale(A, i, factor)`: scale row `i` by `factor`. -/
def rowscale (M : Matrix) (i : Int) (factor : ℚ) : Option Matrix := do
  let i' ← normIdx M.length i
  pure (rowscaleCore M i' factor)

/-- `rowreplacement` body after index resolution:
`M[i, :] = j_scale * M[i, :] + k_scale * M[j, :]` (both rows read before
the assignment). -/
def rowreplacementCore (M : Matrix) (i j : Nat) (jScale kScale : ℚ) : Matrix :=
  M.set i (List.zipWith (fun a b => jScale * a + kScale * b) (row M i) (row M j))

/-- `rowreplacement(A, i, j, j_scale=1.0, k_scale=1.0)`:
`R_i := j_scale * R_i + k_scale * R_j`. -/
def rowreplacement (M : Matrix) (i j : Int)
    (jScale : ℚ := 1) (kScale : ℚ := 1) : Option Matrix := do
  let i' ← normIdx M.length i
  let j' ← normIdx M.length j
  pure (rowreplacementCore M i' j' jScale kScale)

/-- One iteration of the pivot-search loop: `if val > max_val:
max_val, pivot_row = val, rr` with the accumulator `(pivot_row, max_val)`. -/
def pivotFold (M : Matrix) (c : Nat) (acc : Option Nat × ℚ) (rr : Nat) :
    Option Nat × ℚ :=
  if acc.2 < |entry M rr c| then (some rr, |entry M rr c|) else acc

/-- The pivot-search loop of `rref`: scan rows `r .. rows-1` in column
`c`, starting from `pivot_row = None, max_val = eps`. -/
def findPivot (M : Matrix) (r c : Nat) (eps : ℚ) : Option Nat :=
  ((List.range' r (M.length - r)).foldl (pivotFold M c) (none, eps)).1

/-- One iteration of the elimination loop: skip `rr == r`; replace row
`rr` only when `abs(factor) > eps`. -/
def elimFold (r c : Nat) (eps : ℚ) (acc : Matrix) (rr : Nat) : Matrix :=
  if rr = r then acc
  else if eps < |entry acc rr c| then
    rowreplacementCore acc rr r 1 (-(entry acc rr c))
  else acc

/-- The elimination loop of `rref`: `for rr in range(rows)`. -/
def elimAll (M : Matrix) (r c : Nat) (eps : ℚ) : Matrix :=
  (List.range M.length).foldl (elimFold r c eps) M

/-- The body of `rref`'s column loop for one column `c`, acting on the
state `(M, r)`: early exit when `r ≥ rows`, pivot search, conditional
swap, guarded scaling, elimination, and the cursor increment. -/
def rrefStep (eps : ℚ) : Matrix × Nat → Nat → Matrix × Nat
  | (M, r), c =>
    if M.length ≤ r then (M, r)
    else
      match findPivot M r c eps with
      | none => (M, r)
      | some p =>
        let M1 := if p ≠ r then rowswapCore M r p else M
        let M2 := if eps < |entry M1 r c| then
            rowscaleCore M1 r (1 / entry M1 r c)
          else M1
        (elimAll M2 r c eps, r + 1)

/-- The final cleanup `M[abs(M) < eps] = 0.0` (strictly below `eps`). -/
def cleanup (M : Matrix) (eps : ℚ) : Matrix :=
  M.map (List.map (fun x => if |x| < eps then 0 else x))

/-- `rref(A, eps=1e-12)`: Gauss–Jordan elimination with partial
pivoting, followed by the cleanup pass. -/
def rref (M : Matrix) (eps : ℚ := 1 / 10 ^ 12) : Matrix :=
  cleanup ((List.range (ncols M)).foldl (rrefStep eps) (M, 0)).1 eps

/-- Variant of `rrefStep` whose scaling step has no `abs(pivot) > eps`
guard: row `r` is always divided by the pivot value. Used to express
that the guard's skip branch is unreachable. -/
def rrefStepNoGuard (eps : ℚ) : Matrix × Nat → Nat → Matrix × Nat
  | (M, r), c =>
    if M.length ≤ r then (M, r)
    else
      match findPivot M r c eps with
      | none => (M, r)
      | some p =>
        let M1 := if p ≠ r then rowswapCore M r p else M
        let M2 := rowscaleCore M1 r (1 / entry M1 r c)
        (elimAll M2 r c eps, r + 1)

/-- `rref` built from the unguarded scaling step. -/
def rrefNoGuard (M : Matrix) (eps : ℚ := 1 / 10 ^ 12) : Matrix :=
  cleanup ((List.range (ncols M)).foldl (rrefStepNoGuard eps) (M, 0)).1 eps

/-! ### Basic lemmas about rows, entries and `List.set` -/

theorem row_set_self (M : Matrix) (i : Nat) (l : List ℚ) (h : i < M.length) :
    row (M.set i l) i = l := by
  simp [row, List.getD_eq_getElem?_getD, List.getElem?_set_self h]

theorem row_set_ne (M : Matrix) (i j : Nat) (l : List ℚ) (h : i ≠ j) :
    row (M.set i l) j = row M j := by
  simp [row, List.getD_eq_getElem?_getD, List.getElem?_set_ne h]

theorem set_row_self (M : Matrix) (i : Nat) : M.set i (row M i) = M := by
  induction M generalizing i with
  | nil => simp
  | cons a t ih =>
    cases i with
    | zero => simp [row]
    | succ n =>
      simp only [row, List.getD_cons_succ, List.set_cons_succ, List.cons.injEq, true_and]
      exact ih n

theorem row_eq_nil_of_le (M : Matrix) (i : Nat) (h : M.length ≤ i) : row M i = [] :=
  List.getD_eq_default _ _ h

theorem entry_eq_zero_of_le (M : Matrix) (i c : Nat) (h : (row M i).length ≤ c) :
    entry M i c = 0 :=
  List.getD_eq_default _ _ h

theorem lt_col_of_entry_ne_zero {M : Matrix} {i c : Nat} (h : entry M i c ≠ 0) :
    c < (row M i).length := by
  by_contra hc
  exact h (entry_eq_zero_of_le M i c (not_lt.mp hc))

theorem lt_row_of_entry_ne_zero {M : Matrix} {i c : Nat} (h : entry M i c ≠ 0) :
    i < M.length := by
  by_contra hi
  have := row_eq_nil_of_le M i (not_lt.mp hi)
  exact h (by simp [entry, this])

theorem getD_map_of_lt (f : ℚ → ℚ) (l : List ℚ) (c : Nat) (h : c < l.length) :
    (l.map f).getD c 0 = f (l.getD c 0) := by
  rw [List.getD_eq_getElem _ _ (by simpa using h), List.getD_eq_getElem _ _ h,
    List.getElem_map]

theorem getD_zipWith_of_lt (f : ℚ → ℚ → ℚ) (a b : List ℚ) (c : Nat)
    (ha : c < a.length) (hb : c < b.length) :
    (List.zipWith f a b).getD c 0 = f (a.getD c 0) (b.getD c 0) := by
  have h : c < (List.zipWith f a b).length := by
    rw [List.length_zipWith]; exact lt_min ha hb
  rw [List.getD_eq_getElem _ _ h, List.getD_eq_getElem _ _ ha,
    List.getD_eq_getElem _ _ hb, List.getElem_zipWith]

theorem zipWith_self_eq_map (f : ℚ → ℚ → ℚ) (l : List ℚ) :
    List.zipWith f l l = l.map fun x => f x x := by
  induction l with
  | nil => rfl
  | cons a t ih => simp [ih]

theorem foldl_ext {α β : Type} (f g : β → α → β) (h : ∀ b a, f b a = g b a) :
    ∀ (l : List α) (b : β), l.foldl f b = l.foldl g b := by
  intro l
  induction l with
  | nil => intro b; rfl
  | cons a t ih => intro b; rw [List.foldl_cons, List.foldl_cons, h, ih]

/-! ### Lengths are preserved by the elementary cores -/

theorem length_rowswapCore (M : Matrix) (i j : Nat) :
    (rowswapCore M i j).length = M.length := by
  simp [rowswapCore]

theorem length_rowscaleCore (M : Matrix) (i : Nat) (factor : ℚ) :
    (rowscaleCore M i factor).length = M.length := by
  simp [rowscaleCore]

theorem length_rowreplacementCore (M : Matrix) (i j : Nat) (jScale kScale : ℚ) :
    (rowreplacementCore M i j jScale kScale).length = M.length := by
  simp [rowreplacementCore]

/-! ### Characterisation of the pivot search -/

theorem pivotFold_range_spec (M : Matrix) (c : Nat) :
    ∀ (n r : Nat) (o : Option Nat) (m : ℚ),
      ((List.range' r n).foldl (pivotFold M c) (o, m) = (o, m) ∧
        ∀ q, r ≤ q → q < r + n → |entry M q c| ≤ m) ∨
      (∃ p, ((List.range' r n).foldl (pivotFold M c) (o, m)).1 = some p ∧
        ((List.range' r n).foldl (pivotFold M c) (o, m)).2 = |entry M p c| ∧
        r ≤ p ∧ p < r + n ∧ m < |entry M p c| ∧
        (∀ q, r ≤ q → q < p → |entry M q c| < |entry M p c|) ∧
        (∀ q, r ≤ q → q < r + n → |entry M q c| ≤ |entry M p c|)) := by
  intro n
  induction n with
  | zero =>
    intro r o m
    exact Or.inl ⟨rfl, fun q hq hq' => absurd (lt_of_le_of_lt hq hq') (lt_irrefl _)⟩
  | succ n ih =>
    intro r o m
    rw [List.range'_succ, List.foldl_cons]
    by_cases hm : m < |entry M r c|
    · have hstep : pivotFold M c (o, m) r = (some r, |entry M r c|) := by
        simp [pivotFold, hm]
      rw [hstep]
      rcases ih (r + 1) (some r) (|entry M r c|) with ⟨heq, hall⟩ | ⟨p, h1, h2, h3, h4, h5, h6, h7⟩
      · refine Or.inr ⟨r, ?_, ?_, le_refl r, by omega, hm, ?_, ?_⟩
        · rw [heq]
        · rw [heq]
        · intro q hq hq'; omega
        · intro q hq hq'
          rcases eq_or_lt_of_le hq with rfl | hq2
          · exact le_refl _
          · exact hall q hq2 (by omega)
      · refine Or.inr ⟨p, h1, h2, by omega, by omega, lt_trans hm h5, ?_, ?_⟩
        · intro q hq hq'
          rcases eq_or_lt_of_le hq with rfl | hq2
          · exact h5
          · exact h6 q hq2 hq'
        · intro q hq hq'
          rcases eq_or_lt_of_le hq with rfl | hq2
          · exact le_of_lt h5
          · exact h7 q hq2 (by omega)
    · have hstep : pivotFold M c (o, m) r = (o, m) := by
        simp [pivotFold, hm]
      rw [hstep]
      rcases ih (r + 1) o m with ⟨heq, hall⟩ | ⟨p, h1, h2, h3, h4, h5, h6, h7⟩
      · refine Or.inl ⟨heq, ?_⟩
        intro q hq hq'
        rcases eq_or_lt_of_le hq with rfl | hq2
        · exact not_lt.mp hm
        · exact hall q hq2 (by omega)
      · refine Or.inr ⟨p, h1, h2, by omega, by omega, h5, ?_, ?_⟩
        · intro q hq hq'
          rcases eq_or_lt_of_le hq with rfl | hq2
          · exact lt_of_le_of_lt (not_lt.mp hm) h5
          · exact h6 q hq2 hq'
        · intro q hq hq'
          rcases eq_or_lt_of_le hq with rfl | hq2
          · exact le_of_lt (lt_of_le_of_lt (not_lt.mp hm) h5)
          · exact h7 q hq2 (by omega)

theorem findPivot_some_spec {M : Matrix} {r c : Nat} {eps : ℚ} {p : Nat}
    (h : findPivot M r c eps = some p) :
    r ≤ p ∧ p < M.length ∧ eps < |entry M p c| ∧
      (∀ q, r ≤ q → q < p → |entry M q c| < |entry M p c|) ∧
      (∀ q, r ≤ q → q < M.length → |entry M q c| ≤ |entry M p c|) := by
  unfold findPivot at h
  rcases pivotFold_range_spec M c (M.length - r) r none eps with
    ⟨heq, _⟩ | ⟨p', h1, _, h3, h4, h5, h6, h7⟩
  · rw [heq] at h; cases h
  · rw [h1] at h
    cases h
    refine ⟨h3, by omega, h5, h6, fun q hq hq' => h7 q hq (by omega)⟩

theorem findPivot_none_spec {M : Matrix} {r c : Nat} {eps : ℚ}
    (h : findPivot M r c eps = none) :
    ∀ q, r ≤ q → q < M.length → |entry M q c| ≤ eps := by
  unfold findPivot at h
  rcases pivotFold_range_spec M c (M.length - r) r none eps with
    ⟨heq, hall⟩ | ⟨p', h1, _⟩
  · intro q hq hq'
    exact hall q hq (by omega)
  · rw [h1] at h; cases h

/-! ### The elimination loop -/

theorem row_rowreplacementCore_ne (M : Matrix) (i j : Nat) (jScale kScale : ℚ)
    (q : Nat) (h : i ≠ q) :
    row (rowreplacementCore M i j jScale kScale) q = row M q := by
  unfold rowreplacementCore
  exact row_set_ne _ _ _ _ h

theorem elimFold_row_ne (r c : Nat) (eps : ℚ) (acc : Matrix) (rr q : Nat)
    (h : rr ≠ q) : row (elimFold r c eps acc rr) q = row acc q := by
  unfold elimFold
  split
  · rfl
  · split
    · exact row_rowreplacementCore_ne _ _ _ _ _ _ h
    · rfl

theorem elimFold_row_r (r c : Nat) (eps : ℚ) (acc : Matrix) (rr : Nat) :
    row (elimFold r c eps acc rr) r = row acc r := by
  by_cases h : rr = r
  · subst h; unfold elimFold; simp
  · exact elimFold_row_ne r c eps acc rr r h

theorem length_elimFold (r c : Nat) (eps : ℚ) (acc : Matrix) (rr : Nat) :
    (elimFold r c eps acc rr).length = acc.length := by
  unfold elimFold
  split
  · rfl
  · split
    · exact length_rowreplacementCore _ _ _ _ _
    · rfl

theorem elim_foldl_row_not_mem (r c : Nat) (eps : ℚ) :
    ∀ (l : List Nat) (acc : Matrix) (q : Nat), q ∉ l →
      row (l.foldl (elimFold r c eps) acc) q = row acc q := by
  intro l
  induction l with
  | nil => intro acc q _; rfl
  | cons a t ih =>
    intro acc q hq
    rw [List.foldl_cons, ih _ q (fun h => hq (List.mem_cons_of_mem a h)),
      elimFold_row_ne r c eps acc a q (fun h => hq (h ▸ List.mem_cons_self a t))]

theorem elim_foldl_row_r (r c : Nat) (eps : ℚ) :
    ∀ (l : List Nat) (acc : Matrix),
      row (l.foldl (elimFold r c eps) acc) r = row acc r := by
  intro l
  induction l with
  | nil => intro acc; rfl
  | cons a t ih =>
    intro acc
    rw [List.foldl_cons, ih, elimFold_row_r]

theorem length_elim_foldl (r c : Nat) (eps : ℚ) :
    ∀ (l : List Nat) (acc : Matrix),
      (l.foldl (elimFold r c eps) acc).length = acc.length := by
  intro l
  induction l with
  | nil => intro acc; rfl
  | cons a t ih =>
    intro acc
    rw [List.foldl_cons, ih, length_elimFold]

theorem elimFold_entry_le (r c : Nat) (eps : ℚ) (acc : Matrix) (rr : Nat)
    (h0 : 0 ≤ eps) (hrr : rr ≠ r) (hpiv : entry acc r c = 1) :
    |entry (elimFold r c eps acc rr) rr c| ≤ eps := by
  unfold elimFold
  rw [if_neg hrr]
  by_cases hf : eps < |entry acc rr c|
  · rw [if_pos hf]
    have hv : entry acc rr c ≠ 0 := by
      intro h
      rw [h, abs_zero] at hf
      exact absurd h0 (not_le.mpr hf)
    have hcrr : c < (row acc rr).length := lt_col_of_entry_ne_zero hv
    have hcr : c < (row acc r).length :=
      lt_col_of_entry_ne_zero (M := acc) (i := r) (c := c) (by rw [hpiv]; exact one_ne_zero)
    have hlen : rr < acc.length := lt_row_of_entry_ne_zero hv
    unfold rowreplacementCore entry
    rw [row_set_self _ _ _ hlen, getD_zipWith_of_lt _ _ _ _ hcrr hcr]
    have : (row acc r).getD c 0 = 1 := hpiv
    rw [this]
    have : (row acc rr).getD c 0 = entry acc rr c := rfl
    rw [this]
    simp [abs_zero, h0]
  · rw [if_neg hf]
    exact not_lt.mp hf

theorem elim_foldl_small (r c : Nat) (eps : ℚ) (h0 : 0 ≤ eps) :
    ∀ (l : List Nat) (acc : Matrix), l.Nodup → entry acc r c = 1 →
      ∀ rr ∈ l, rr ≠ r → |entry (l.foldl (elimFold r c eps) acc) rr c| ≤ eps := by
  intro l
  induction l with
  | nil => intro acc _ _ rr h; cases h
  | cons a t ih =>
    intro acc hnd hpiv rr hmem hne
    rw [List.nodup_cons] at hnd
    have hpiv1 : entry (elimFold r c eps acc a) r c = 1 := by
      rw [entry, elimFold_row_r]; exact hpiv
    rw [List.foldl_cons]
    rcases List.mem_cons.mp hmem with rfl | hmem'
    · rw [entry, elim_foldl_row_not_mem r c eps t _ rr hnd.1]
      exact elimFold_entry_le r c eps acc rr h0 hne hpiv
    · exact ih (elimFold r c eps acc a) hnd.2 hpiv1 rr hmem' hne

theorem elimAll_small (M : Matrix) (r c : Nat) (eps : ℚ) (h0 : 0 ≤ eps)
    (hpiv : entry M r c = 1) :
    ∀ rr, rr < M.length → rr ≠ r → |entry (elimAll M r c eps) rr c| ≤ eps := by
  intro rr h1 h2
  exact elim_foldl_small r c eps h0 (List.range M.length) M (List.nodup_range _)
    hpiv rr (List.mem_range.mpr h1) h2

theorem elimAll_pivot (M : Matrix) (r c : Nat) (eps : ℚ) (hpiv : entry M r c = 1) :
    entry (elimAll M r c eps) r c = 1 := by
  unfold elimAll
  rw [entry, elim_foldl_row_r]; exact hpiv

theorem length_elimAll (M : Matrix) (r c : Nat) (eps : ℚ) :
    (elimAll M r c eps).length = M.length :=
  length_elim_foldl r c eps (List.range M.length) M

/-! ### The column step -/

theorem length_condSwap (M : Matrix) (r p : Nat) :
    (if p ≠ r then rowswapCore M r p else M).length = M.length := by
  split
  · exact length_rowswapCore M r p
  · rfl

theorem entry_condSwap (M : Matrix) (r p c : Nat) (hr : r < M.length) :
    entry (if p ≠ r then rowswapCore M r p else M) r c = entry M p c := by
  by_cases h : p = r
  · subst h; simp
  · rw [if_pos h]
    unfold rowswapCore entry
    rw [row_set_ne _ p r _ h, row_set_self _ _ _ hr]

theorem entry_scaled_pivot (M : Matrix) (r c : Nat) (h : entry M r c ≠ 0) :
    entry (rowscaleCore M r (1 / entry M r c)) r c = 1 := by
  have hc : c < (row M r).length := lt_col_of_entry_ne_zero h
  have hr : r < M.length := lt_row_of_entry_ne_zero h
  unfold rowscaleCore entry
  rw [row_set_self _ _ _ hr, getD_map_of_lt _ _ _ hc]
  exact one_div_mul_cancel h

theorem rrefStep_none (M : Matrix) (r c : Nat) (eps : ℚ) (hr : r < M.length)
    (h : findPivot M r c eps = none) : rrefStep eps (M, r) c = (M, r) := by
  simp [rrefStep, not_le.mpr hr, h]

theorem rrefStep_some (M : Matrix) (r c : Nat) (eps : ℚ) (p : Nat)
    (hr : r < M.length) (hp : findPivot M r c eps = some p) :
    rrefStep eps (M, r) c =
      (elimAll
        (if eps < |entry (if p ≠ r then rowswapCore M r p else M) r c| then
          rowscaleCore (if p ≠ r then rowswapCore M r p else M) r
            (1 / entry (if p ≠ r then rowswapCore M r p else M) r c)
        else (if p ≠ r then rowswapCore M r p else M)) r c eps, r + 1) := by
  simp [rrefStep, not_le.mpr hr, hp]

theorem rrefStep_eq_noGuard (eps : ℚ) (st : Matrix × Nat) (c : Nat) :
    rrefStep eps st c = rrefStepNoGuard eps st c := by
  obtain ⟨M, r⟩ := st
  by_cases hr : M.length ≤ r
  · simp [rrefStep, rrefStepNoGuard, hr]
  · cases hfp : findPivot M r c eps with
    | none => simp [rrefStep, rrefStepNoGuard, hr, hfp]
    | some p =>
      obtain ⟨hrp, hplen, hgt, _, _⟩ := findPivot_some_spec hfp
      have hgt1 : eps < |entry (if p = r then M else rowswapCore M r p) r c| := by
        rw [← ite_not, entry_condSwap M r p c (not_le.mp hr)]
        exact hgt
      simp [rrefStep, rrefStepNoGuard, hr, hfp, hgt1]

/-! ### Index normalisation and the public operations -/

theorem normIdx_isSome_iff (n : Nat) (i : Int) :
    (normIdx n i).isSome ↔ -(n : Int) ≤ i ∧ i < (n : Int) := by
  unfold normIdx
  by_cases h1 : 0 ≤ i ∧ i < (n : Int)
  · rw [if_pos h1]; simp; omega
  · rw [if_neg h1]
    by_cases h2 : -(n : Int) ≤ i ∧ i < 0
    · rw [if_pos h2]; simp; omega
    · rw [if_neg h2]; simp; omega

theorem normIdx_nonneg (n : Nat) (i : Int) (h0 : 0 ≤ i) (h1 : i < (n : Int)) :
    normIdx n i = some i.toNat := by
  unfold normIdx
  rw [if_pos ⟨h0, h1⟩]

theorem normIdx_neg (n : Nat) (i : Int) (h0 : -(n : Int) ≤ i) (h1 : i < 0) :
    normIdx n i = some (i + (n : Int)).toNat := by
  unfold normIdx
  rw [if_neg (by omega), if_pos ⟨h0, h1⟩]

theorem rowswap_isSome_iff (M : Matrix) (i j : Int) :
    (rowswap M i j).isSome ↔
      (-(M.length : Int) ≤ i ∧ i < (M.length : Int)) ∧
        (-(M.length : Int) ≤ j ∧ j < (M.length : Int)) := by
  unfold rowswap
  rw [← normIdx_isSome_iff M.length i, ← normIdx_isSome_iff M.length j]
  cases normIdx M.length i with
  | none => simp
  | some a =>
    cases normIdx M.length j with
    | none => simp
    | some b => simp

theorem rowscale_isSome_iff (M : Matrix) (i : Int) (factor : ℚ) :
    (rowscale M i factor).isSome ↔
      -(M.length : Int) ≤ i ∧ i < (M.length : Int) := by
  unfold rowscale
  rw [← normIdx_isSome_iff M.length i]
  cases normIdx M.length i with
  | none => simp
  | some a => simp

theorem rowreplacement_isSome_iff (M : Matrix) (i j : Int) (jScale kScale : ℚ) :
    (rowreplacement M i j jScale kScale).isSome ↔
      (-(M.length : Int) ≤ i ∧ i < (M.length : Int)) ∧
        (-(M.length : Int) ≤ j ∧ j < (M.length : Int)) := by
  unfold rowreplacement
  rw [← normIdx_isSome_iff M.length i, ← normIdx_isSome_iff M.length j]
  cases normIdx M.length i with
  | none => simp
  | some a =>
    cases normIdx M.length j with
    | none => simp
    | some b => simp

theorem rowswapCore_invol (M : Matrix) (i j : Nat) (hi : i < M.length)
    (hj : j < M.length) : rowswapCore (rowswapCore M i j) i j = M := by
  by_cases hij : i = j
  · subst hij
    have hself : ∀ N : Matrix, rowswapCore N i i = N := by
      intro N
      unfold rowswapCore
      rw [List.set_set, set_row_self]
    rw [hself, hself]
  · unfold rowswapCore
    have hri : row ((M.set i (row M j)).set j (row M i)) i = row M j := by
      rw [row_set_ne _ j i _ (fun h => hij h.symm), row_set_self _ _ _ hi]
    have hrj : row ((M.set i (row M j)).set j (row M i)) j = row M i := by
      rw [row_set_self _ _ _ (by rw [List.length_set]; exact hj)]
    rw [hri, hrj, List.set_comm (row M i) (row M i) (M.set i (row M j))
      (fun h => hij h.symm), List.set_set, List.set_set, set_row_self, set_row_self]

/-! ### `rref` on 1×1 matrices -/

theorem rref_singleton (x eps : ℚ) (h0 : 0 ≤ eps) (h1 : eps < 1) :
    rref [[x]] eps =
      if eps < |x| then [[1]] else if |x| < eps then [[0]] else [[x]] := by
  have hent : entry [[x]] 0 0 = x := rfl
  have hfp : findPivot [[x]] 0 0 eps = if eps < |x| then some 0 else none := by
    by_cases h : eps < |x| <;>
      simp [findPivot, List.range', pivotFold, hent, h]
  unfold rref
  rw [show ncols [[x]] = 1 from rfl, show List.range 1 = [0] from rfl,
    List.foldl_cons, List.foldl_nil]
  by_cases h : eps < |x|
  · have hx : x ≠ 0 := by
      intro hz; rw [hz, abs_zero] at h; exact absurd h0 (not_le.mpr h)
    rw [rrefStep_some [[x]] 0 0 eps 0 (by norm_num) (by rw [hfp, if_pos h])]
    rw [if_pos h]
    simp only [ne_eq, not_true_eq_false, if_false, hent]
    rw [if_pos h]
    have hscale : rowscaleCore [[x]] 0 (1 / x) = [[1]] := by
      simp [rowscaleCore, row, inv_mul_cancel₀ hx]
    rw [hscale]
    have helim : elimAll [[1]] 0 0 eps = [[1]] := by
      simp [elimAll, elimFold, List.range, List.range.loop]
    rw [helim]
    simp [cleanup, abs_one, not_lt.mpr (le_of_lt h1)]
  · rw [rrefStep_none [[x]] 0 0 eps (by norm_num) (by rw [hfp, if_neg h])]
    rw [if_neg h]
    by_cases h2 : |x| < eps
    · rw [if_pos h2]
      simp [cleanup, h2]
    · rw [if_neg h2]
      simp [cleanup, h2]

/-! ## The claims -/

/-- C1: for `M = [[0,3,-6,6,4],[3,-7,8,-5,8],[3,-9,12,-9,6]]`, `rref(M)` with
the default tolerance returns exactly `[[1,0,-2,3,0],[0,1,-2,2,0],[0,0,0,0,1]]`.
In the exact rational model the equality is exact, which in particular puts
every entry within `1e-9` of the stated value. -/
theorem rref_lay_scenario :
    rref [[0, 3, -6, 6, 4], [3, -7, 8, -5, 8], [3, -9, 12, -9, 6]]
      = [[1, 0, -2, 3, 0], [0, 1, -2, 2, 0], [0, 0, 0, 0, 1]] := by
  with_unfolding_all rfl

/-- C2: the pivot search over rows `r .. rows-1` of column `c` returns a row
`p` in that range whose entry strictly exceeds `eps` in absolute value, is a
maximum of the scanned absolute values, and strictly dominates every earlier
scanned row (ties break to the earliest row); when the largest absolute value
does not exceed `eps` no pivot is returned and the step leaves both the
matrix and the cursor `r` unchanged. -/
theorem findPivot_selects_max_abs (M : Matrix) (r c : Nat) (eps : ℚ) :
    (∀ p, findPivot M r c eps = some p →
      r ≤ p ∧ p < M.length ∧ eps < |entry M p c| ∧
      (∀ q, r ≤ q → q < p → |entry M q c| < |entry M p c|) ∧
      (∀ q, r ≤ q → q < M.length → |entry M q c| ≤ |entry M p c|)) ∧
    (findPivot M r c eps = none →
      (∀ q, r ≤ q → q < M.length → |entry M q c| ≤ eps) ∧
      (r < M.length → rrefStep eps (M, r) c = (M, r))) :=
  ⟨fun _ hp => findPivot_some_spec hp,
   fun hn => ⟨findPivot_none_spec hn, fun hr => rrefStep_none M r c eps hr hn⟩⟩

/-- Witness for C2: on `[[0,5],[3,6],[3,7]]`, column 0, the pivot search from
row 0 selects row 1 (the earliest row of maximal absolute value 3), whose
entry exceeds `eps` and strictly dominates row 0. -/
theorem findPivot_selects_max_abs_witness :
    (1 : ℚ) / 10 ^ 12 < |entry [[0, 5], [3, 6], [3, 7]] 1 0| ∧
      |entry [[0, 5], [3, 6], [3, 7]] 0 0| < |entry [[0, 5], [3, 6], [3, 7]] 1 0| := by
  have h := (findPivot_selects_max_abs [[0, 5], [3, 6], [3, 7]] 0 0
    (1 / 10 ^ 12)).1 1 (by with_unfolding_all rfl)
  exact ⟨h.2.2.1, h.2.2.2.1 0 (by norm_num) (by norm_num)⟩

/-- C3 counterexample: with `eps = 1e-12` and `M = [[1,0],[eps/2,0]]`, after
the column-0 step the non-pivot row 1 still holds `eps/2 ≠ 0` in column 0:
no rowReplace was applied to it, because its entry satisfies
`|eps/2| ≤ eps`, so the claim that every non-pivot row ends the step with
value 0 in the pivot column is false. -/
theorem rrefStep_leaves_small_entry :
    entry (rrefStep (1 / 10 ^ 12) ([[1, 0], [1 / (2 * 10 ^ 12), 0]], 0) 0).1 1 0
        = 1 / (2 * 10 ^ 12) ∧
      (1 / (2 * 10 ^ 12) : ℚ) ≠ 0 := by
  constructor
  · with_unfolding_all rfl
  · norm_num

/-- C3 (amended): after a pivot is established in row `r` of column `c`, the
pivot entry is exactly 1 and rowReplace with `jScale = 1` and
`kScale = -(current value)` is applied exactly to those rows `rr ≠ r` whose
current value in column `c` exceeds `eps` in absolute value — those rows end
the step with value 0 in column `c`, while the skipped rows keep their
value of magnitude at most `eps`; hence every non-pivot row ends the step
with `|value| ≤ eps` in column `c` (not necessarily 0). -/
theorem rrefStep_eliminates_above_eps (M : Matrix) (r c : Nat) (eps : ℚ)
    (p : Nat) (h0 : 0 ≤ eps) (hp : findPivot M r c eps = some p) :
    entry (rrefStep eps (M, r) c).1 r c = 1 ∧
      ∀ rr, rr < M.length → rr ≠ r →
        |entry (rrefStep eps (M, r) c).1 rr c| ≤ eps := by
  obtain ⟨hrp, hplen, hgt, -, -⟩ := findPivot_some_spec hp
  have hr : r < M.length := lt_of_le_of_lt hrp hplen
  rw [rrefStep_some M r c eps p hr hp]
  set M1 := if p ≠ r then rowswapCore M r p else M with hM1def
  have hM1rc : entry M1 r c = entry M p c := entry_condSwap M r p c hr
  have hgt1 : eps < |entry M1 r c| := by rw [hM1rc]; exact hgt
  rw [if_pos hgt1]
  set M2 := rowscaleCore M1 r (1 / entry M1 r c) with hM2def
  have hpne : entry M1 r c ≠ 0 := by
    intro hz; rw [hz, abs_zero] at hgt1; exact absurd h0 (not_le.mpr hgt1)
  have hM2 : entry M2 r c = 1 := entry_scaled_pivot M1 r c hpne
  have hM2len : M2.length = M.length := by
    rw [hM2def, length_rowscaleCore, hM1def, length_condSwap]
  refine ⟨elimAll_pivot M2 r c eps hM2, fun rr hrr hner => ?_⟩
  exact elimAll_small M2 r c eps h0 hM2 rr (hM2len ▸ hrr) hner

/-- Witness for C3 (amended) at `M = [[2,1],[1,1]]`, column 0: the pivot row
ends at 1 and the eliminated row 1 ends with `|entry| ≤ eps`. -/
theorem rrefStep_eliminates_above_eps_witness :
    entry (rrefStep (1 / 10 ^ 12) ([[2, 1], [1, 1]], 0) 0).1 0 0 = 1 ∧
      |entry (rrefStep (1 / 10 ^ 12) ([[2, 1], [1, 1]], 0) 0).1 1 0|
        ≤ 1 / 10 ^ 12 := by
  have h := rrefStep_eliminates_above_eps [[2, 1], [1, 1]] 0 0 (1 / 10 ^ 12) 0
    (by norm_num) (by with_unfolding_all rfl)
  exact ⟨h.1, h.2 1 (by norm_num) (by norm_num)⟩

/-- C4 counterexample: the cleanup pass uses `abs(M) < eps`, strictly, so an
entry whose absolute value equals `eps` is kept: `rref([[eps]])` with
`eps = 1e-12` returns `[[eps]]`, whose sole entry satisfies `|x| ≤ eps`
but is not 0. -/
theorem rref_keeps_entry_at_eps :
    rref [[1 / 10 ^ 12]] (1 / 10 ^ 12) = [[1 / 10 ^ 12]] ∧
      |(1 / 10 ^ 12 : ℚ)| ≤ 1 / 10 ^ 12 ∧ (1 / 10 ^ 12 : ℚ) ≠ 0 := by
  refine ⟨by with_unfolding_all rfl, ?_, by norm_num⟩
  rw [abs_of_pos (by norm_num)]

/-- C4 (amended): after `rref` finishes, every element whose absolute value
is strictly below `eps` is 0 (elements with `|x| = eps` may survive). -/
theorem rref_zeroes_strictly_small (M : Matrix) (eps : ℚ) (l : List ℚ) (x : ℚ)
    (hl : l ∈ rref M eps) (hx : x ∈ l) (h : |x| < eps) : x = 0 := by
  unfold rref cleanup at hl
  rcases List.mem_map.mp hl with ⟨l0, -, rfl⟩
  rcases List.mem_map.mp hx with ⟨x0, -, rfl⟩
  by_cases h2 : |x0| < eps
  · rw [if_pos h2]
  · rw [if_neg h2] at h
    exact absurd h h2

/-- Witness for C4 (amended): `rref([[eps/2]], eps) = [[0]]` and its entry,
being strictly below `eps` in absolute value, is 0. -/
theorem rref_zeroes_strictly_small_witness : (0 : ℚ) = 0 :=
  rref_zeroes_strictly_small [[1 / (2 * 10 ^ 12)]] (1 / 10 ^ 12) [0] 0
    (by with_unfolding_all decide) (by simp) (by norm_num)

/-- C5 counterexample: a negative row index does not fail: PyTorch indexing
wraps it, so `rowswap([[1],[2]], -1, 0)` succeeds and swaps the last row
with row 0 instead of raising IndexOutOfRange. -/
theorem rowswap_negative_index_succeeds :
    rowswap [[1], [2]] (-1) 0 = some [[2], [1]] := by
  with_unfolding_all rfl

/-- C5 (amended): an elementary operation fails exactly when a row index is
outside `[-rows, rows)`; indices in `[0, rows)` always succeed, and negative
indices in `[-rows, -1]` are accepted (they address row `rows + i`). -/
theorem elementary_ops_index_validity (M : Matrix) (i j : Int)
    (factor jScale kScale : ℚ) :
    ((rowswap M i j).isSome ↔
      (-(M.length : Int) ≤ i ∧ i < (M.length : Int)) ∧
        (-(M.length : Int) ≤ j ∧ j < (M.length : Int))) ∧
    ((rowscale M i factor).isSome ↔
      -(M.length : Int) ≤ i ∧ i < (M.length : Int)) ∧
    ((rowreplacement M i j jScale kScale).isSome ↔
      (-(M.length : Int) ≤ i ∧ i < (M.length : Int)) ∧
        (-(M.length : Int) ≤ j ∧ j < (M.length : Int))) :=
  ⟨rowswap_isSome_iff M i j, rowscale_isSome_iff M i factor,
    rowreplacement_isSome_iff M i j jScale kScale⟩

/-- C6: `rowReplace(M, i, i, jScale, kScale)` with equal indices returns a
matrix whose row `i` is `(jScale + kScale) * row_i` of the input, all other
rows unchanged. -/
theorem rowreplacement_same_row (M : Matrix) (i : Int) (jScale kScale : ℚ)
    (h0 : 0 ≤ i) (h1 : i < (M.length : Int)) :
    ∃ M', rowreplacement M i i jScale kScale = some M' ∧
      row M' i.toNat = (row M i.toNat).map (fun x => (jScale + kScale) * x) ∧
      ∀ q, q ≠ i.toNat → row M' q = row M q := by
  have hi : i.toNat < M.length := by omega
  refine ⟨rowreplacementCore M i.toNat i.toNat jScale kScale, ?_, ?_, ?_⟩
  · unfold rowreplacement
    rw [normIdx_nonneg _ _ h0 h1]
    rfl
  · unfold rowreplacementCore
    rw [row_set_self _ _ _ hi, zipWith_self_eq_map]
    have : (fun x : ℚ => jScale * x + kScale * x)
        = fun x : ℚ => (jScale + kScale) * x := by
      funext x; ring
    rw [this]
  · intro q hq
    exact row_set_ne _ _ _ _ fun h => hq h.symm

/-- Witness for C6: `rowReplace([[1,2],[3,4]], 1, 1, 2, 3)` succeeds and its
row 1 is `(2+3) * [3,4] = [15,20]`. -/
theorem rowreplacement_same_row_witness :
    ∃ M', rowreplacement [[1, 2], [3, 4]] 1 1 2 3 = some M' ∧
      row M' 1 = [15, 20] := by
  obtain ⟨M', h1, h2, -⟩ := rowreplacement_same_row [[1, 2], [3, 4]] 1 2 3
    (by norm_num) (by norm_num)
  have h2' : row M' 1 = (row [[1, 2], [3, 4]] 1).map fun x => ((2 : ℚ) + 3) * x := h2
  refine ⟨M', h1, ?_⟩
  rw [h2']
  with_unfolding_all rfl

/-- C7: for valid indices `i ≠ j`, swapping rows `i` and `j` twice returns
the original matrix. -/
theorem rowswap_involution (M : Matrix) (i j : Int)
    (hi0 : 0 ≤ i) (hi1 : i < (M.length : Int))
    (hj0 : 0 ≤ j) (hj1 : j < (M.length : Int)) (hij : i ≠ j) :
    (rowswap M i j).bind (fun N => rowswap N i j) = some M := by
  have hi : i.toNat < M.length := by omega
  have hj : j.toNat < M.length := by omega
  have h1 : rowswap M i j = some (rowswapCore M i.toNat j.toNat) := by
    unfold rowswap
    rw [normIdx_nonneg _ _ hi0 hi1, normIdx_nonneg _ _ hj0 hj1]
    rfl
  rw [h1]
  have hlen : (rowswapCore M i.toNat j.toNat).length = M.length :=
    length_rowswapCore M _ _
  show rowswap (rowswapCore M i.toNat j.toNat) i j = some M
  unfold rowswap
  rw [hlen, normIdx_nonneg _ _ hi0 hi1, normIdx_nonneg _ _ hj0 hj1]
  show some (rowswapCore (rowswapCore M i.toNat j.toNat) i.toNat j.toNat)
    = some M
  rw [rowswapCore_invol M i.toNat j.toNat hi hj]

/-- Witness for C7 at `[[1,2],[3,4]]` with `i = 0`, `j = 1`. -/
theorem rowswap_involution_witness :
    (rowswap [[1, 2], [3, 4]] 0 1).bind (fun N => rowswap N 0 1)
      = some [[1, 2], [3, 4]] :=
  rowswap_involution [[1, 2], [3, 4]] 0 1 (by norm_num) (by norm_num)
    (by norm_num) (by norm_num) (by norm_num)

/-- C8 counterexample: `rref` is not idempotent. For
`M = [[eps/2, 2*eps]]` with the default `eps = 1e-12`, the first pass finds
no pivot in column 0 (`eps/2 ≤ eps`) but pivots on column 1 and scales the
row by `1/(2*eps)`, amplifying the first entry to `1/4 > eps`; the result
`[[1/4, 1]]` then pivots on column 0 in a second pass, giving `[[1, 4]]`. -/
theorem rref_not_idempotent :
    rref (rref [[1 / (2 * 10 ^ 12), 2 / 10 ^ 12]])
      ≠ rref [[1 / (2 * 10 ^ 12), 2 / 10 ^ 12]] := by
  with_unfolding_all decide

/-- C8 (amended): idempotence does hold on 1×1 matrices: for every `x` and
every tolerance `0 ≤ eps < 1`, `rref (rref [[x]] eps) eps = rref [[x]] eps`.
In general a second application of `rref` can change the result, because
pivot scaling may amplify a sub-`eps` entry of a previously skipped column
above `eps` (see the counterexample). -/
theorem rref_idempotent_on_singletons (x eps : ℚ) (h0 : 0 ≤ eps)
    (h1 : eps < 1) : rref (rref [[x]] eps) eps = rref [[x]] eps := by
  rw [rref_singleton x eps h0 h1]
  by_cases h : eps < |x|
  · rw [if_pos h, rref_singleton 1 eps h0 h1, if_pos (by rw [abs_one]; exact h1)]
  · by_cases h2 : |x| < eps
    · rw [if_neg h, if_pos h2, rref_singleton 0 eps h0 h1, abs_zero,
        if_neg (not_lt.mpr h0), if_pos (lt_of_le_of_lt (abs_nonneg x) h2)]
    · rw [if_neg h, if_neg h2, rref_singleton x eps h0 h1, if_neg h, if_neg h2]

/-- Witness for C8 (amended) at `x = 2`, `eps = 1e-12`. -/
theorem rref_idempotent_on_singletons_witness :
    rref (rref [[2]] (1 / 10 ^ 12)) (1 / 10 ^ 12) = rref [[2]] (1 / 10 ^ 12) :=
  rref_idempotent_on_singletons 2 (1 / 10 ^ 12) (by norm_num) (by norm_num)

/-- C10: for every `eps > 0`, whenever the pivot search succeeds the selected
pivot entry strictly exceeds `eps` in absolute value — in particular it is
nonzero, so the divisor `pivot` of the scaling step is never zero — and the
`abs(pivot) > eps` guard in front of the scaling is always true: `rref`
computes the same result as the variant whose scaling step is unguarded. -/
theorem rref_scaling_guard_unreachable (M : Matrix) (eps : ℚ) (h0 : 0 < eps) :
    rref M eps = rrefNoGuard M eps ∧
      ∀ r c p, findPivot M r c eps = some p →
        eps < |entry M p c| ∧ entry M p c ≠ 0 := by
  constructor
  · unfold rref rrefNoGuard
    rw [foldl_ext (rrefStep eps) (rrefStepNoGuard eps)
      (fun st c => rrefStep_eq_noGuard eps st c)]
  · intro r c p hp
    have h := (findPivot_some_spec hp).2.2.1
    refine ⟨h, fun hz => ?_⟩
    rw [hz, abs_zero] at h
    linarith

/-- Witness for C10 at `[[0,3],[2,5]]` with the default tolerance. -/
theorem rref_scaling_guard_unreachable_witness :
    rref [[0, 3], [2, 5]] (1 / 10 ^ 12)
      = rrefNoGuard [[0, 3], [2, 5]] (1 / 10 ^ 12) :=
  (rref_scaling_guard_unreachable [[0, 3], [2, 5]] (1 / 10 ^ 12)
    (by norm_num)).1

end MatrixElem
